import Mathlib

/-!
# simple_shell: a verification development for `simpleShell.c`

The shell reads a line, classifies it (pipe, redirection, plain command) and
realises it with `fork`/`execvp`/`pipe`.  This file embeds the C functions
`parseArgs`, `splitCmd`, `saveHistory`, `execCmd`, `execRedir`, `execPipe` and
the loop of `main` as Lean functions over an explicit process state, and proves
properties of them.

Conventions of the embedding.

* A C string is the list of its characters before the terminating NUL.
  A `char *` that may be `NULL` is an `Option (List Char)`.
* `strtok` keeps a hidden pointer into the buffer it is working on.  It is
  passed around explicitly as the string found at that pointer (`saved`).
  `strtok` only ever writes a NUL in front of that pointer, so the string at
  the pointer, and the strings of tokens returned earlier, never change.
* The NUL characters `strtok` writes change the buffer `execCmd` was called
  on: the C string at its start is cut short.  The executors take the buffer
  as a `Buf`, the global `history` or a local array, and cut it accordingly.
* The results of the system calls the shell branches on (`pipe`, `fork`,
  `open`, `execvp`) are given by an arbitrary oracle `OS`.
-/

namespace SimpleShell

/-! ## Constants -/

/-- The macro `#define MAX_LENGTH 255`. -/
def MAX_LENGTH : Nat := 255

/-- The macro `#define MAX_ARGS MAX_LENGTH / 2 + 1`.  It is expanded textually; at
each of its uses (`char *args[MAX_ARGS]`, `count < MAX_ARGS - 1`,
`i < MAX_ARGS`) the expansion has the value written here, resp. this value
minus one. -/
def MAX_ARGS : Nat := MAX_LENGTH / 2 + 1

/-- The macro `#define DELIMITER " \t\n"`. -/
def DELIMITER : List Char := [' ', '\t', '\n']

/-- The macro `#define EXIT -1`. -/
def EXIT : Int := -1
/-- The macro `#define FAIL 0`. -/
def FAIL : Int := 0
/-- The macro `#define SUCCESS 1`. -/
def SUCCESS : Int := 1
/-- The macro `#define INVALID_CMD 2`. -/
def INVALID_CMD : Int := 2

/-! ## Tokenizer -/

/-- The C library function `strtok(str, delim)`.  `str = none` is the call
`strtok(NULL, delim)`, which resumes at the saved pointer.  The result is the
returned token (`none` for `NULL`) and the string at the new saved pointer.

```
    if (s == NULL) s = saved;
    s += strspn(s, delim);
    if (*s == 0) { saved = s; return NULL; }
    end = s + strcspn(s, delim);
    if (*end == 0) { saved = end; return s; }
    *end = 0; saved = end + 1; return s;
```
-/
def strtok (str : Option (List Char)) (delim : List Char) (saved : List Char) :
    Option (List Char) × List Char :=
  match (str.getD saved).dropWhile (fun c => decide (c ∈ delim)) with
  | [] => (none, [])
  | c :: cs =>
    match (c :: cs).dropWhile (fun c => !decide (c ∈ delim)) with
    | [] => (some ((c :: cs).takeWhile (fun c => !decide (c ∈ delim))), [])
    | _ :: rest => (some ((c :: cs).takeWhile (fun c => !decide (c ∈ delim))), rest)

/-- The slots of an argument array (`char *args[MAX_ARGS]`) that have been
written, from index 0 on; `none` is a `NULL` slot. -/
abbrev Args := List (Option (List Char))

/-- The loop of `parseArgs`,
`while (args[count] != NULL && count < MAX_ARGS - 1) args[++count] = strtok(NULL, delimiter);`
The first argument is `MAX_ARGS - 1 - count`, `cur` is `args[count]`.  Returns
the slots written from index `count` on and the saved pointer of `strtok`. -/
def parseArgsLoop (delim : List Char) :
    Nat → Option (List Char) → List Char → Args × List Char
  | 0, cur, saved => ([cur], saved)
  | _ + 1, none, saved => ([none], saved)
  | k + 1, some tok, saved =>
    let r := strtok none delim saved
    let rest := parseArgsLoop delim k r.1 r.2
    (some tok :: rest.1, rest.2)

/-- The function `void parseArgs(char *cmd, char **args, const char *delimiter)`.
Returns the written slots `args[0..count]` and the saved pointer of `strtok`
on return. -/
def parseArgs (cmd : Option (List Char)) (delim : List Char) (saved : List Char) :
    Args × List Char :=
  let r := strtok cmd delim saved
  parseArgsLoop delim (MAX_ARGS - 1) r.1 r.2

/-- The function `void splitCmd(char *cmd, char **parts, const char *delimiter)`:
`parts[0] = strtok(cmd, delimiter); parts[1] = strtok(NULL, delimiter);`.
Both callers pass a non-`NULL` `cmd`. -/
def splitCmd (cmd : List Char) (delim : List Char) :
    (Option (List Char) × Option (List Char)) × List Char :=
  let r0 := strtok (some cmd) delim []
  let r1 := strtok none delim r0.2
  ((r0.1, r1.1), r1.2)

/-- The value of `args[i]`.  The shell reads a slot only after it has been
written; an unwritten slot reads as `NULL` here. -/
def argAt (args : Args) (i : Nat) : Option (List Char) :=
  (args.get? i).join

/-- The strings stored before the first `NULL` slot. -/
def tokensOf : Args → List (List Char)
  | [] => []
  | none :: _ => []
  | some t :: rest => t :: tokensOf rest

/-- The maximal delimiter-free runs of characters of a line, in order: the
line is cut at every delimiter character and the empty pieces are dropped. -/
def runs (delim : List Char) (line : List Char) : List (List Char) :=
  (line.splitOnP (fun c => decide (c ∈ delim))).filter (fun t => !t.isEmpty)

/-! ## Processes and the operating system -/

/-- The messages the shell prints with `printf`. -/
inductive Msg where
  /-- The text "No commands in history.\n" -/
  | noHistory
  /-- The text "Error: Cannot create new process.\n" -/
  | cannotFork
  /-- The text "Error: Cannot execute command.\n" -/
  | cannotExec
  /-- The text "Error: Cannot open file.\n" -/
  | cannotOpen
  /-- The text "Error: Cannot create pipe.\n" -/
  | cannotPipe
  deriving DecidableEq, Repr

/-- What a child process does between `fork` and its end. -/
inductive Act where
  /-- The call `open(path, O_RDONLY)`; `fd = none` when it returns a negative value -/
  | openRead (path : List Char) (fd : Option Nat)
  /-- The call `open(path, O_WRONLY | O_CREAT | O_APPEND, S_IRWXU | S_IRWXG | S_IRWXO)` -/
  | openAppend (path : List Char) (fd : Option Nat)
  /-- The call `dup2(oldfd, newfd)` -/
  | dup2 (oldfd newfd : Nat)
  /-- The call `close(fd)` -/
  | close (fd : Nat)
  /-- A `printf` of a message -/
  | print (msg : Msg)
  /-- The call `execvp(args[0], args)`, where `argv` are the strings of `args` before its
  first `NULL` slot -/
  | execvp (argv : List (List Char))
  deriving DecidableEq, Repr

/-- How a child process ends its life as a copy of the shell. -/
inductive Fate where
  /-- The call of `execvp` succeeded: the program image is replaced, with this `argv` -/
  | image (argv : List (List Char))
  /-- The call `exit(status)` -/
  | exit (status : Nat)
  /-- The child is killed by a signal inside `execvp(NULL, args)`: the C library reads the
  file name it is given, so nothing is printed and `exit` is never called -/
  | killed
  deriving DecidableEq, Repr

/-- A child process created by `fork`. -/
structure Child where
  pid : Nat
  acts : List Act
  fate : Fate
  deriving DecidableEq, Repr

/-- The results of the system calls the shell branches on. -/
structure OS where
  /-- does the call of `pipe` succeed, given the number of earlier calls -/
  pipeOk : Nat → Bool
  /-- does the call of `fork` succeed, given the number of earlier calls -/
  forkOk : Nat → Bool
  /-- does `open` succeed in the child with this pid -/
  openOk : Nat → Bool
  /-- does `execvp` succeed in the child with this pid -/
  execOk : Nat → Bool

/-- The state of the shell process. -/
structure Shell where
  /-- The global `char history[MAX_LENGTH]`, as a C string -/
  history : List Char
  /-- the descriptors open in the shell process -/
  fds : List Nat
  /-- the messages printed by the shell process, oldest first -/
  out : List Msg
  /-- the arguments of the calls of `chdir`, oldest first -/
  dirs : List (List Char)
  /-- the child processes created, oldest first -/
  children : List Child
  /-- the pids `waitpid` was called on, oldest first -/
  waited : List Nat
  /-- the number of calls of `pipe` -/
  pipes : Nat
  /-- the number of calls of `fork` -/
  forks : Nat
  deriving DecidableEq, Repr

/-- How a call of one of the `exec*` functions of the shell ends. -/
inductive Result where
  /-- the function returns `code` to its caller -/
  | returned (code : Int) (st : Shell)
  /-- the shell process itself calls `exit(status)` -/
  | exited (status : Nat) (st : Shell)
  /-- the recursion of `execCmd` is deeper than the depth allowed -/
  | outOfFuel
  deriving DecidableEq, Repr

/-- The lowest descriptor number not in use, which `open` and `pipe` hand out. -/
def lowestFree (fds : List Nat) : Nat :=
  ((List.range (fds.length + 1)).find? (fun n => decide (n ∉ fds))).getD fds.length

/-- The call `close(fd)` in the shell process. -/
def closeFd (fd : Nat) (st : Shell) : Shell :=
  { st with fds := st.fds.filter (fun d => decide (d ≠ fd)) }

/-- A `printf` in the shell process. -/
def print (msg : Msg) (st : Shell) : Shell :=
  { st with out := st.out ++ [msg] }

/-- The call `waitpid(pid, NULL, 0)` in the shell process. -/
def waitpid (pid : Nat) (st : Shell) : Shell :=
  { st with waited := st.waited ++ [pid] }

/-- The pid `fork` gives to the next child. -/
def nextPid (st : Shell) : Nat := st.children.length + 1

/-- The parent side of a successful `fork()`: the child, which runs `body`,
exists from now on. -/
def forked (body : Nat → List Act × Fate) (st : Shell) : Shell :=
  { st with
    forks := st.forks + 1
    children := st.children ++ [⟨nextPid st, (body (nextPid st)).1, (body (nextPid st)).2⟩] }

/-- The parent side of a failed `fork()`. -/
def forkFailed (st : Shell) : Shell :=
  { st with forks := st.forks + 1 }

/-- The end of every child,
`if (execvp(args[0], args) < 0) { printf("Error: Cannot execute command.\n"); exit(1); } exit(0);`
after the actions `acts`.  `execvp` reads `args` up to its first `NULL` slot.
When `args[0]` is `NULL` the call is `execvp(NULL, args)`, in which the child is
killed.  (When all `MAX_ARGS` slots hold a token the array has no `NULL` slot
and the C program reads past its end; this needs a line of `MAX_LENGTH`
characters or more, which `fgets` never delivers.  Here `execvp` then sees the
`MAX_ARGS` tokens.) -/
def execvpOrDie (os : OS) (pid : Nat) (args : Args) (acts : List Act) : List Act × Fate :=
  if tokensOf args = [] then
    (acts ++ [Act.execvp []], Fate.killed)
  else if os.execOk pid = true then
    (acts ++ [Act.execvp (tokensOf args)], Fate.image (tokensOf args))
  else
    (acts ++ [Act.execvp (tokensOf args), Act.print Msg.cannotExec], Fate.exit 1)

/-! ## Buffers

`execCmd`, `execRedir` and `execPipe` receive a pointer `cmd` and run `strtok`
on it, which writes NUL characters into the buffer `cmd` points to.  Tokens
and saved pointers lie behind the characters written, so the tokenizer above
works on values; what remains to be told is what the owner of the buffer
finds in it afterwards. -/

/-- The buffer a `char *cmd` argument points to: the global array `history`, or
a local array (`cmd` of `main`, `tempCmd` of `execCmd`) holding the given C
string, which nobody reads again after the call. -/
inductive Buf where
  | history
  | array (s : List Char)
  deriving DecidableEq, Repr

/-- The C string found in a buffer. -/
def Buf.cstr (st : Shell) : Buf → List Char
  | Buf.history => st.history
  | Buf.array s => s

/-- The state once the C string in the buffer has been cut down to `s` by a NUL
character that `strtok` wrote into it. -/
def Buf.cut (s : List Char) (st : Shell) : Buf → Shell
  | Buf.history => { st with history := s }
  | Buf.array _ => st

/-- The string found at `s` after `strtok(s, delim)` and the calls
`strtok(NULL, delim)` that follow it: the first call writes NUL over the
delimiter that ends the first token (`*end = 0`), so the string now stops
there; the later calls write further to the right. -/
def strtokHead (s delim : List Char) : List Char :=
  s.takeWhile (fun c => decide (c ∈ delim)) ++
    (s.dropWhile (fun c => decide (c ∈ delim))).takeWhile (fun c => !decide (c ∈ delim))

/-- The string found at `cmd` after `splitCmd(cmd, parts, delim)` and
`parseArgs(parts[0], ..)`, `parseArgs(parts[1], ..)`: `parts[0]` points behind
the leading delimiters of `cmd`, and `parseArgs(parts[0], ..)` cuts the string
there after its first token.  Without a `parts[0]` nothing is written. -/
def partsHead (cmd delim : List Char) : List Char :=
  match (splitCmd cmd delim).1.1 with
  | none => cmd
  | some part => cmd.takeWhile (fun c => decide (c ∈ delim)) ++ strtokHead part DELIMITER

/-! ## The executors -/

/-- The child of `execRedir` (the branch `pid == 0`), which inherits the
descriptors `fds`. -/
def redirChild (os : OS) (mode : Int) (path : List Char) (args : Args) (fds : List Nat)
    (pid : Nat) : List Act × Fate :=
  if mode = 0 then
    if os.openOk pid = true then
      execvpOrDie os pid args
        [Act.openRead path (some (lowestFree fds)), Act.dup2 (lowestFree fds) 0,
          Act.close (lowestFree fds)]
    else
      ([Act.openRead path none, Act.print Msg.cannotOpen], Fate.exit 0)
  else
    if os.openOk pid = true then
      execvpOrDie os pid args
        [Act.openAppend path (some (lowestFree fds)), Act.dup2 (lowestFree fds) 1,
          Act.close (lowestFree fds)]
    else
      ([Act.openAppend path none, Act.print Msg.cannotOpen], Fate.exit 0)

/-- The function `int execRedir(char *cmd, int mode)`. -/
def execRedir (os : OS) (st0 : Shell) (cmd : Buf) (mode : Int) : Result :=
  let parts := splitCmd (cmd.cstr st0) ['<', '>']
  let args := parseArgs parts.1.1 DELIMITER parts.2
  let fileParse := parseArgs parts.1.2 DELIMITER args.2
  let st := cmd.cut (partsHead (cmd.cstr st0) ['<', '>']) st0
  match argAt fileParse.1 0 with
  | none => Result.returned INVALID_CMD st
  | some path =>
    if os.forkOk st.forks = true then
      Result.returned SUCCESS
        (waitpid (nextPid st) (forked (redirChild os mode path args.1 st.fds) st))
    else
      Result.returned FAIL (print Msg.cannotFork (forkFailed st))

/-- The parent side of a successful `pipe(pfd)`: `pfd[0]` and `pfd[1]` are the
two lowest free descriptors. -/
def piped (st : Shell) : Shell :=
  { st with
    pipes := st.pipes + 1
    fds := lowestFree (lowestFree st.fds :: st.fds) :: lowestFree st.fds :: st.fds }

/-- The first child of `execPipe` (the branch `pid1 == 0`). -/
def pipeChildL (os : OS) (argsL : Args) (pfd0 pfd1 : Nat) (pid : Nat) : List Act × Fate :=
  execvpOrDie os pid argsL [Act.close pfd0, Act.dup2 pfd1 1]

/-- The second child of `execPipe` (the branch `pid2 == 0`). -/
def pipeChildR (os : OS) (argsR : Args) (pfd0 pfd1 : Nat) (pid : Nat) : List Act × Fate :=
  execvpOrDie os pid argsR [Act.close pfd1, Act.dup2 pfd0 0]

/-- The function `int execPipe(char *cmd)`. -/
def execPipe (os : OS) (st0 : Shell) (cmd : Buf) : Result :=
  let parts := splitCmd (cmd.cstr st0) ['|']
  let argsL := parseArgs parts.1.1 DELIMITER parts.2
  let argsR := parseArgs parts.1.2 DELIMITER argsL.2
  let st := cmd.cut (partsHead (cmd.cstr st0) ['|']) st0
  if argAt argsR.1 0 = none ∨ argAt argsL.1 0 = none then
    Result.returned INVALID_CMD st
  else if os.pipeOk st.pipes = false then
    Result.returned FAIL (print Msg.cannotPipe { st with pipes := st.pipes + 1 })
  else
    let pfd0 := lowestFree st.fds
    let pfd1 := lowestFree (pfd0 :: st.fds)
    let st1 := piped st
    if os.forkOk st1.forks = false then
      Result.returned FAIL (print Msg.cannotFork (forkFailed st1))
    else
      let pid1 := nextPid st1
      let st2 := forked (pipeChildL os argsL.1 pfd0 pfd1) st1
      if os.forkOk st2.forks = false then
        Result.exited 1 (print Msg.cannotFork (forkFailed st2))
      else
        let pid2 := nextPid st2
        let st3 := forked (pipeChildR os argsR.1 pfd0 pfd1) st2
        Result.returned SUCCESS
          (waitpid pid2 (waitpid pid1 (closeFd pfd1 (closeFd pfd0 st3))))

/-- The loop of `execCmd` that looks for `&`,
```
    for (int i = 0; i < MAX_ARGS; i++) {
      if (args[i] == NULL) break;
      if (strcmp(args[i], "&") == 0) { args[i] = NULL; shouldWait = 0; break; }
    }
```
The first argument is `MAX_ARGS - i`, the second the slots from index `i` on.
Returns these slots after the loop and `shouldWait`. -/
def scanBackground : Nat → Args → Args × Bool
  | 0, args => (args, true)
  | _ + 1, [] => ([], true)
  | _ + 1, none :: rest => (none :: rest, true)
  | k + 1, some a :: rest =>
    if a = ['&'] then (none :: rest, false)
    else ((some a :: (scanBackground k rest).1), (scanBackground k rest).2)

/-- The child of a plain command (the branch `pid == 0` of `execCmd`). -/
def plainChild (os : OS) (args : Args) (pid : Nat) : List Act × Fate :=
  execvpOrDie os pid args []

/-- The part of `execCmd` after the three `strchr` tests (lines 112 to 193):
built-ins, background marker, `fork`.  `replay` is the recursive call
`execCmd(tempCmd)`, made on a local array into which `history` has been copied
(`char tempCmd[MAX_LENGTH]; strcpy(tempCmd, history);`). -/
def execPlain (os : OS) (replay : Shell → Buf → Result) (st0 : Shell)
    (cmd : Buf) : Result :=
  let args := (parseArgs (some (cmd.cstr st0)) DELIMITER []).1
  let st := cmd.cut (strtokHead (cmd.cstr st0) DELIMITER) st0
  match argAt args 0 with
  | none => Result.returned INVALID_CMD st
  | some a0 =>
    if a0 = ['c', 'd'] then
      match argAt args 1 with
      | none => Result.returned INVALID_CMD st
      | some dir => Result.returned SUCCESS { st with dirs := st.dirs ++ [dir] }
    else if a0 = ['e', 'x', 'i', 't'] then
      Result.returned EXIT st
    else if a0 = ['!', '!'] then
      if st.history.length = 0 then
        Result.returned INVALID_CMD (print Msg.noHistory st)
      else
        match replay st (Buf.array st.history) with
        | Result.returned _ st1 => Result.returned INVALID_CMD st1
        | Result.exited status st1 => Result.exited status st1
        | Result.outOfFuel => Result.outOfFuel
    else
      let scan := scanBackground MAX_ARGS args
      if os.forkOk st.forks = true then
        if scan.2 = true then
          Result.returned SUCCESS (waitpid (nextPid st) (forked (plainChild os scan.1) st))
        else
          Result.returned SUCCESS (forked (plainChild os scan.1) st)
      else
        Result.returned FAIL (print Msg.cannotFork (forkFailed st))

/-- The function `int execCmd(char *cmd)`.  The first argument bounds the depth of the
recursion: `execCmd os (n + 1)` may nest `n` further calls of `execCmd`. -/
def execCmd (os : OS) : Nat → Shell → Buf → Result
  | 0, _, _ => Result.outOfFuel
  | n + 1, st, cmd =>
    if '|' ∈ cmd.cstr st then execPipe os st cmd
    else if '<' ∈ cmd.cstr st then execRedir os st cmd 0
    else if '>' ∈ cmd.cstr st then execRedir os st cmd 1
    else execPlain os (execCmd os n) st cmd

/-! ## The driver loop -/

/-- The function `void saveHistory(char *cmd)`: `strcpy(history, cmd);` -/
def saveHistory (cmd : List Char) (st : Shell) : Shell :=
  { st with history := cmd }

/-- The state in which `main` starts: `history` is zero-initialised, the three
standard descriptors are open. -/
def initial : Shell :=
  { history := [], fds := [0, 1, 2], out := [], dirs := [], children := [], waited := [],
    pipes := 0, forks := 0 }

/-- The loop of `main`, run on the successive contents of its local array `cmd`
(what `fgets` leaves there at each iteration), with recursion depth `fuel` for
each call of `execCmd`.  Returns the state when the loop ends, the lines run out, the shell
process exits or the depth is exceeded.
```
    strcpy(backupCmd, cmd);
    isSuccess = execCmd(cmd);
    if (isSuccess != INVALID_CMD) saveHistory(backupCmd);
    shouldRun = (isSuccess != -1);
```
-/
def mainLoop (os : OS) (fuel : Nat) : List (List Char) → Shell → Shell
  | [], st => st
  | cmd :: rest, st =>
    match execCmd os fuel st (Buf.array cmd) with
    | Result.returned isSuccess st1 =>
      let st2 := if isSuccess ≠ INVALID_CMD then saveHistory cmd st1 else st1
      if isSuccess ≠ -1 then mainLoop os fuel rest st2 else st2
    | Result.exited _ st1 => st1
    | Result.outOfFuel => st

/-- An operating system in which every call succeeds. -/
def osAllOk : OS := ⟨fun _ => true, fun _ => true, fun _ => true, fun _ => true⟩

/-- An operating system in which `pipe` succeeds and every `fork` fails. -/
def osNoFork : OS := ⟨fun _ => true, fun _ => false, fun _ => true, fun _ => true⟩

/-- An operating system in which every `open` fails and the other calls succeed. -/
def osNoOpen : OS := ⟨fun _ => true, fun _ => true, fun _ => false, fun _ => true⟩

/-- The slots `parseArgs` leaves in an array when the string it works on has
the runs `R` and the loop may run `k` times: all runs and the end marker
`NULL` when there are at most `k` runs, else the first `k + 1` runs and no end
marker. -/
def slotsOf (k : Nat) (R : List (List Char)) : Args :=
  if R.length ≤ k then R.map some ++ [none] else (R.take (k + 1)).map some

/-- The split the description asks of `splitCmd`: the text of the line before
the first delimiter character and the remainder of the line after that
character, a part being absent exactly when its text is empty. -/
def splitAtFirst (line delim : List Char) : Option (List Char) × Option (List Char) :=
  let before := line.takeWhile (fun c => !decide (c ∈ delim))
  let after := (line.dropWhile (fun c => !decide (c ∈ delim))).drop 1
  (if before = [] then none else some before, if after = [] then none else some after)

/-- A line of `n` one-letter words, each followed by a blank. -/
def wordsLine (n : Nat) : List Char := (List.replicate n ['a', ' ']).flatten

/-- The parsing stage common to `execRedir` and `execPipe`: `splitCmd` on the
line, then `parseArgs` on `parts[0]` and on `parts[1]`; the two argument
vectors. -/
def parseParts (cmd delim : List Char) : Args × Args :=
  ((parseArgs (splitCmd cmd delim).1.1 DELIMITER (splitCmd cmd delim).2).1,
   (parseArgs (splitCmd cmd delim).1.2 DELIMITER
      (parseArgs (splitCmd cmd delim).1.1 DELIMITER (splitCmd cmd delim).2).2).1)

/-- The first whitespace-separated token of an optional part of a line. -/
def firstToken (part : Option (List Char)) : Option (List Char) :=
  part.bind (fun p => (runs DELIMITER p).get? 0)

/-- The lines on which `execCmd` reaches its `!!` branch: none of the three
`strchr` tests succeeds and `strcmp(args[0], "!!") == 0`. -/
def takesReplay (cmd : List Char) : Bool :=
  decide ('|' ∉ cmd) && decide ('<' ∉ cmd) && decide ('>' ∉ cmd) &&
    decide (argAt (parseArgs (some cmd) DELIMITER []).1 0 = some ['!', '!'])

/-- The history found in the state a call ends in is `h`. -/
def Result.keepsHistory (h : List Char) : Result → Prop
  | Result.returned _ st => st.history = h
  | Result.exited _ st => st.history = h
  | Result.outOfFuel => True

instance (h : List Char) (r : Result) : Decidable (r.keepsHistory h) := by
  cases r <;> unfold Result.keepsHistory <;> infer_instance

/-! ## The tokenizer and the runs of a line -/

theorem runs_nil (delim : List Char) : runs delim [] = [] := by
  simp [runs]

theorem runs_cons_delim (delim : List Char) (c : Char) (s : List Char) (hc : c ∈ delim) :
    runs delim (c :: s) = runs delim s := by
  simp [runs, hc]

theorem runs_dropWhile (delim : List Char) (s : List Char) :
    runs delim (s.dropWhile (fun c => decide (c ∈ delim))) = runs delim s := by
  induction s with
  | nil => simp
  | cons c s ih =>
    by_cases hc : c ∈ delim
    · rw [List.dropWhile_cons_of_pos (by simpa using hc), ih, runs_cons_delim delim c s hc]
    · rw [List.dropWhile_cons_of_neg (by simpa using hc)]

theorem runs_clean (delim : List Char) (t : List Char) (ht : t ≠ [])
    (hclean : ∀ c ∈ t, c ∉ delim) : runs delim t = [t] := by
  have h : t.splitOnP (fun c => decide (c ∈ delim)) = [t] :=
    List.splitOnP_eq_single _ _ (by simpa using hclean)
  simp [runs, h, ht]

theorem splitOnP_append_sep (p : Char → Bool) (l : List Char) (d : Char) (r : List Char)
    (hd : p d = true) :
    (l ++ d :: r).splitOnP p = l.splitOnP p ++ r.splitOnP p := by
  induction l with
  | nil => simp [hd]
  | cons x l ih =>
    rw [List.cons_append, List.splitOnP_cons, List.splitOnP_cons, ih]
    by_cases hx : p x = true
    · simp [hx]
    · simp only [hx, Bool.false_eq_true, if_false]
      cases hl : l.splitOnP p with
      | nil => exact absurd hl (List.splitOnP_ne_nil p l)
      | cons a as => rfl

theorem runs_append_sep (delim : List Char) (l : List Char) (d : Char) (r : List Char)
    (hd : d ∈ delim) : runs delim (l ++ d :: r) = runs delim l ++ runs delim r := by
  unfold runs
  rw [splitOnP_append_sep _ l d r (by simpa using hd), List.filter_append]

/-- What one call of `strtok` on the string `s` returns, in terms of the runs
of `s`: `NULL` when there is none, else the first run, leaving the text
after the delimiter that ends it. -/
theorem strtok_spec (delim s sv : List Char) :
    (strtok (some s) delim sv = (none, []) ∧ runs delim s = []) ∨
    ∃ t s1, strtok (some s) delim sv = (some t, s1) ∧ runs delim s = t :: runs delim s1 ∧
      t ≠ [] ∧ (∀ c ∈ t, c ∉ delim) ∧
      ((s1 = [] ∧ t.length ≤ s.length) ∨ t.length + s1.length + 1 ≤ s.length) := by
  have hlen : (s.dropWhile (fun c => decide (c ∈ delim))).length ≤ s.length :=
    (List.dropWhile_sublist _).length_le
  have hruns := runs_dropWhile delim s
  have hhead : ∀ c cs, s.dropWhile (fun c => decide (c ∈ delim)) = c :: cs → c ∉ delim := by
    intro c cs h
    have := List.head_dropWhile_not (fun c => decide (c ∈ delim)) s (by simp [h])
    simpa [h] using this
  unfold strtok
  simp only [Option.getD_some]
  cases h1 : s.dropWhile (fun c => decide (c ∈ delim)) with
  | nil =>
    left
    rw [h1] at hruns
    exact ⟨rfl, by rw [← hruns, runs_nil]⟩
  | cons c cs =>
    right
    rw [h1] at hruns hlen
    have hc := hhead c cs h1
    dsimp only
    have hsplit := List.takeWhile_append_dropWhile (fun c => !decide (c ∈ delim)) (c :: cs)
    have htclean : ∀ x ∈ (c :: cs).takeWhile (fun c => !decide (c ∈ delim)), x ∉ delim := by
      intro x hx
      simpa using List.mem_takeWhile_imp hx
    have htne : (c :: cs).takeWhile (fun c => !decide (c ∈ delim)) ≠ [] := by
      rw [List.takeWhile_cons_of_pos (by simpa using hc)]
      simp
    cases h2 : (c :: cs).dropWhile (fun c => !decide (c ∈ delim)) with
    | nil =>
      rw [h2, List.append_nil] at hsplit
      refine ⟨_, _, rfl, ?_, htne, htclean, Or.inl ⟨rfl, ?_⟩⟩
      · rw [← hruns, runs_nil, hsplit]
        exact runs_clean delim _ (by simp) (by rw [← hsplit]; exact htclean)
      · rw [hsplit]; exact hlen
    | cons d rest =>
      rw [h2] at hsplit
      have hd : d ∈ delim := by
        have := List.head_dropWhile_not (fun c => !decide (c ∈ delim)) (c :: cs) (by simp [h2])
        simpa [h2] using this
      generalize List.takeWhile (fun c => !decide (c ∈ delim)) (c :: cs) = tk at *
      refine ⟨_, _, rfl, ?_, htne, htclean, Or.inr ?_⟩
      · rw [← hruns, ← hsplit, runs_append_sep delim _ d rest hd,
          runs_clean delim _ htne htclean]
        rfl
      · have := congrArg List.length hsplit
        simp only [List.length_append, List.length_cons] at this hlen
        omega

/-- The string `strtok(s, delim)` leaves at `s` is made of the leading
delimiters it skipped and the token it returned. -/
theorem strtokHead_eq (delim s sv : List Char) :
    strtokHead s delim =
      s.takeWhile (fun c => decide (c ∈ delim)) ++ ((strtok (some s) delim sv).1).getD [] := by
  unfold strtokHead strtok
  simp only [Option.getD_some]
  cases h1 : s.dropWhile (fun c => decide (c ∈ delim)) with
  | nil => rfl
  | cons c cs =>
    dsimp only
    cases (c :: cs).dropWhile (fun c => !decide (c ∈ delim)) <;> rfl

theorem strtok_resume (delim s sv : List Char) :
    strtok none delim s = strtok (some s) delim sv := rfl

theorem strtok_null_at_end (delim : List Char) : strtok none delim [] = (none, []) := rfl

/-- Every run is non-empty and free of delimiter characters. -/
theorem runs_clean_of_mem (delim : List Char) :
    ∀ (n : Nat) (s : List Char), s.length ≤ n →
      ∀ t ∈ runs delim s, t ≠ [] ∧ ∀ c ∈ t, c ∉ delim := by
  intro n
  induction n with
  | zero =>
    intro s hs t ht
    have : s = [] := List.length_eq_zero.mp (Nat.le_zero.mp hs)
    rw [this, runs_nil] at ht
    cases ht
  | succ n ih =>
    intro s hs t ht
    rcases strtok_spec delim s [] with ⟨-, h0⟩ | ⟨t1, s1, -, hr, hne, hcl, hlen⟩
    · rw [h0] at ht; cases ht
    · rw [hr] at ht
      rcases List.mem_cons.mp ht with rfl | ht1
      · exact ⟨hne, hcl⟩
      · refine ih s1 ?_ t ht1
        rcases hlen with ⟨rfl, -⟩ | h
        · simp
        · omega

/-- A line of `n` characters has at most `(n + 1) / 2` runs. -/
theorem runs_length_le (delim : List Char) :
    ∀ (n : Nat) (s : List Char), s.length ≤ n → 2 * (runs delim s).length ≤ s.length + 1 := by
  intro n
  induction n with
  | zero =>
    intro s hs
    have : s = [] := List.length_eq_zero.mp (Nat.le_zero.mp hs)
    simp [this, runs_nil]
  | succ n ih =>
    intro s hs
    rcases strtok_spec delim s [] with ⟨-, h0⟩ | ⟨t1, s1, -, hr, hne, hcl, hlen⟩
    · simp [h0]
    · have ht1 : 1 ≤ t1.length := List.length_pos.mpr hne
      rw [hr, List.length_cons]
      rcases hlen with ⟨rfl, h⟩ | h
      · simp only [runs_nil, List.length_nil]; omega
      · have := ih s1 (by omega)
        omega

theorem parseArgsLoop_spec (delim : List Char) :
    ∀ (k : Nat) (s sv : List Char),
      (parseArgsLoop delim k (strtok (some s) delim sv).1 (strtok (some s) delim sv).2).1
          = slotsOf k (runs delim s) ∧
      ((runs delim s).length ≤ k →
        (parseArgsLoop delim k (strtok (some s) delim sv).1 (strtok (some s) delim sv).2).2
          = []) := by
  intro k
  induction k with
  | zero =>
    intro s sv
    rcases strtok_spec delim s sv with ⟨h, h0⟩ | ⟨t1, s1, h, hr, -, -, -⟩
    · simp [h, h0, parseArgsLoop, slotsOf]
    · simp [h, hr, parseArgsLoop, slotsOf]
  | succ k ih =>
    intro s sv
    rcases strtok_spec delim s sv with ⟨h, h0⟩ | ⟨t1, s1, h, hr, -, -, -⟩
    · simp [h, h0, parseArgsLoop, slotsOf]
    · have := ih s1 []
      rw [← strtok_resume delim s1 []] at this
      rw [h, hr]
      simp only [parseArgsLoop, this.1, List.length_cons, Nat.add_le_add_iff_right]
      refine ⟨?_, this.2⟩
      unfold slotsOf
      simp only [List.length_cons, Nat.add_le_add_iff_right]
      split <;> simp

/-- The slots written by `parseArgs` on a string, and the end of the string as
saved pointer when the end marker was stored. -/
theorem parseArgs_spec (delim s sv : List Char) :
    (parseArgs (some s) delim sv).1 = slotsOf (MAX_ARGS - 1) (runs delim s) ∧
    ((runs delim s).length ≤ MAX_ARGS - 1 → (parseArgs (some s) delim sv).2 = []) :=
  parseArgsLoop_spec delim (MAX_ARGS - 1) s sv

/-- The call `parseArgs(NULL, ...)` when the saved pointer of `strtok` is at the end
of its string stores `NULL` in slot 0. -/
theorem parseArgs_null (delim : List Char) : parseArgs none delim [] = ([none], []) := rfl

theorem tokensOf_map_some (R : List (List Char)) (rest : Args) :
    tokensOf (R.map some ++ none :: rest) = R := by
  induction R with
  | nil => rfl
  | cons t R ih => simp [tokensOf, ih]

theorem tokensOf_map_some_only (R : List (List Char)) : tokensOf (R.map some) = R := by
  induction R with
  | nil => rfl
  | cons t R ih => simp [tokensOf, ih]

theorem tokensOf_slotsOf (k : Nat) (R : List (List Char)) :
    tokensOf (slotsOf k R) = R.take (k + 1) := by
  unfold slotsOf
  split
  · rw [tokensOf_map_some, List.take_of_length_le (by omega)]
  · rw [tokensOf_map_some_only]

theorem argAt_slotsOf (k : Nat) (R : List (List Char)) (i : Nat) (hi : i ≤ k) :
    argAt (slotsOf k R) i = R.get? i := by
  unfold slotsOf argAt
  split
  · by_cases h : i < R.length
    · simp [List.getElem?_append_left, h]
    · have h1 : R.length ≤ i := by omega
      rw [List.get?_eq_getElem?, List.get?_eq_getElem?, List.getElem?_append_right (by simpa using h1),
        List.getElem?_eq_none h1]
      cases i - (List.map some R).length with
      | zero => rfl
      | succ j => rfl
  · simp [List.getElem?_take, Nat.lt_succ_of_le hi]
    cases R[i]? <;> rfl

theorem length_slotsOf (k : Nat) (R : List (List Char)) : (slotsOf k R).length ≤ k + 1 := by
  unfold slotsOf
  split
  · simp; omega
  · simp [List.length_take]

/-- The two parts `splitCmd` stores are the first two runs of the line; when
there is no run at all the saved pointer of `strtok` is at the end of the line. -/
theorem splitCmd_spec (line delim : List Char) :
    (splitCmd line delim).1 = ((runs delim line).get? 0, (runs delim line).get? 1) ∧
    ((runs delim line) = [] → (splitCmd line delim).2 = []) := by
  unfold splitCmd
  rcases strtok_spec delim line [] with ⟨h, h0⟩ | ⟨t1, s1, h, hr, -, -, -⟩
  · simp [h, h0, strtok_null_at_end]
  · rw [h, hr]
    simp only [strtok_resume delim s1 []]
    rcases strtok_spec delim s1 [] with ⟨h', h0'⟩ | ⟨t2, s2, h', hr', -, -, -⟩
    · simp [h', h0']
    · simp [h', hr']

/-! ## The parsing stage of the executors -/

theorem runs_mem_length (delim : List Char) :
    ∀ (n : Nat) (s : List Char), s.length ≤ n → ∀ t ∈ runs delim s, t.length ≤ s.length := by
  intro n
  induction n with
  | zero =>
    intro s hs t ht
    have : s = [] := List.length_eq_zero.mp (Nat.le_zero.mp hs)
    rw [this, runs_nil] at ht
    cases ht
  | succ n ih =>
    intro s hs t ht
    rcases strtok_spec delim s [] with ⟨-, h0⟩ | ⟨t1, s1, -, hr, hne, -, hlen⟩
    · rw [h0] at ht; cases ht
    · have ht1 : 1 ≤ t1.length := List.length_pos.mpr hne
      rw [hr] at ht
      rcases List.mem_cons.mp ht with rfl | ht1
      · rcases hlen with ⟨-, h⟩ | h <;> omega
      · rcases hlen with ⟨rfl, -⟩ | h
        · rw [runs_nil] at ht1; cases ht1
        · have := ih s1 (by omega) t ht1
          omega

theorem mem_splitOnP_of_mem (p : Char → Bool) (s : List Char) (c : Char) (hc : c ∈ s)
    (hp : p c = false) : ∃ t ∈ s.splitOnP p, c ∈ t := by
  induction s with
  | nil => cases hc
  | cons x xs ih =>
    rw [List.splitOnP_cons]
    by_cases hx : p x = true
    · have hne : c ≠ x := by
        intro h; rw [h, hx] at hp; cases hp
      rcases List.mem_cons.mp hc with h | h
      · exact absurd h hne
      · obtain ⟨t, ht, hct⟩ := ih h
        exact ⟨t, by simp [hx, ht], hct⟩
    · simp only [hx, Bool.false_eq_true, if_false]
      cases hl : xs.splitOnP p with
      | nil => exact absurd hl (List.splitOnP_ne_nil p xs)
      | cons a as =>
        rcases List.mem_cons.mp hc with h | h
        · exact ⟨x :: a, by simp [List.modifyHead], by simp [h]⟩
        · obtain ⟨t, ht, hct⟩ := ih h
          rw [hl] at ht
          rcases List.mem_cons.mp ht with rfl | ht
          · exact ⟨x :: t, by simp [List.modifyHead], by simp [hct]⟩
          · exact ⟨t, by simp [List.modifyHead, ht], hct⟩

/-- Every character of a line that is not a delimiter lies in one of its runs. -/
theorem mem_runs_of_mem (delim s : List Char) (c : Char) (hc : c ∈ s) (hd : c ∉ delim) :
    ∃ t ∈ runs delim s, c ∈ t := by
  obtain ⟨t, ht, hct⟩ := mem_splitOnP_of_mem (fun c => decide (c ∈ delim)) s c hc (by simpa using hd)
  refine ⟨t, ?_, hct⟩
  unfold runs
  rw [List.mem_filter]
  refine ⟨ht, ?_⟩
  cases t with
  | nil => cases hct
  | cons a as => rfl

theorem all_delim_of_runs_nil (delim s : List Char) (h : runs delim s = []) :
    ∀ c ∈ s, c ∈ delim := by
  intro c hc
  by_contra hd
  obtain ⟨t, ht, -⟩ := mem_runs_of_mem delim s c hc hd
  rw [h] at ht
  cases ht

theorem runs_length_le_max (delim s : List Char) (h : s.length < MAX_LENGTH) :
    (runs delim s).length ≤ MAX_ARGS - 1 := by
  have := runs_length_le delim s.length s (Nat.le_refl _)
  simp only [MAX_LENGTH] at h
  simp only [MAX_ARGS, MAX_LENGTH]
  omega

theorem argAt_parseArgs (delim s sv : List Char) (i : Nat) (hi : i ≤ MAX_ARGS - 1) :
    argAt (parseArgs (some s) delim sv).1 i = (runs delim s).get? i := by
  rw [(parseArgs_spec delim s sv).1, argAt_slotsOf _ _ _ hi]

/-- The first slots of the two argument vectors of `execRedir` and `execPipe`
hold the first tokens of the first two runs of the line. -/
theorem parseParts_spec (line delim : List Char) (hlen : line.length < MAX_LENGTH) :
    argAt (parseParts line delim).1 0 = firstToken ((runs delim line).get? 0) ∧
    argAt (parseParts line delim).2 0 = firstToken ((runs delim line).get? 1) := by
  obtain ⟨hp, hs⟩ := splitCmd_spec line delim
  have h1 : (splitCmd line delim).1.1 = (runs delim line).get? 0 := by rw [hp]
  have h2 : (splitCmd line delim).1.2 = (runs delim line).get? 1 := by rw [hp]
  unfold parseParts
  rw [h1, h2]
  cases hR : runs delim line with
  | nil =>
    rw [hs hR]
    simp [parseArgs_null, argAt, firstToken]
  | cons p0 R =>
    have hp0 : p0.length < MAX_LENGTH := by
      have := runs_mem_length delim line.length line (Nat.le_refl _) p0 (by simp [hR])
      omega
    have hsv := (parseArgs_spec DELIMITER p0 (splitCmd line delim).2).2
      (runs_length_le_max DELIMITER p0 hp0)
    cases R with
    | nil =>
      simp only [List.get?_cons_zero, List.get?_cons_succ, List.get?_nil]
      rw [hsv, parseArgs_null]
      exact ⟨argAt_parseArgs _ _ _ 0 (Nat.zero_le _), rfl⟩
    | cons p1 R =>
      simp only [List.get?_cons_zero, List.get?_cons_succ]
      exact ⟨argAt_parseArgs _ _ _ 0 (Nat.zero_le _), argAt_parseArgs _ _ _ 0 (Nat.zero_le _)⟩

theorem cstr_array (st : Shell) (s : List Char) : (Buf.array s).cstr st = s := rfl

theorem cut_array (st : Shell) (s x : List Char) : (Buf.array s).cut x st = st := rfl

theorem execRedir_invalid (os : OS) (st : Shell) (cmd : List Char) (mode : Int)
    (h : argAt (parseParts cmd ['<', '>']).2 0 = none) :
    execRedir os st (Buf.array cmd) mode = Result.returned INVALID_CMD st := by
  unfold parseParts at h
  unfold execRedir
  simp only [cstr_array, cut_array, h]

theorem execPipe_invalid (os : OS) (st : Shell) (cmd : List Char)
    (h : argAt (parseParts cmd ['|']).2 0 = none ∨ argAt (parseParts cmd ['|']).1 0 = none) :
    execPipe os st (Buf.array cmd) = Result.returned INVALID_CMD st := by
  unfold parseParts at h
  unfold execPipe
  simp only [cstr_array, cut_array, h, if_true]

theorem runs_of_clean (delim t : List Char) (hclean : ∀ c ∈ t, c ∉ delim) :
    runs delim t = if t = [] then [] else [t] := by
  by_cases ht : t = []
  · simp [ht, runs_nil]
  · simp [ht, runs_clean delim t ht hclean]

/-- The first two runs of a line with a single delimiter character. -/
theorem runs_single_sep (delim l : List Char) (d : Char) (r : List Char) (hd : d ∈ delim)
    (hl : ∀ c ∈ l, c ∉ delim) (hr : ∀ c ∈ r, c ∉ delim) :
    (runs delim (l ++ d :: r)).get? 0
        = (if l = [] then (if r = [] then none else some r) else some l) ∧
    (runs delim (l ++ d :: r)).get? 1 = (if l = [] ∨ r = [] then none else some r) := by
  rw [runs_append_sep delim l d r hd, runs_of_clean delim l hl, runs_of_clean delim r hr]
  by_cases h1 : l = [] <;> by_cases h2 : r = [] <;> simp [h1, h2]

theorem execPlain_no_command (os : OS) (replay : Shell → Buf → Result) (st : Shell)
    (cmd : List Char) (h : (runs DELIMITER cmd).get? 0 = none) :
    execPlain os replay st (Buf.array cmd) = Result.returned INVALID_CMD st := by
  have h0 := argAt_parseArgs DELIMITER cmd [] 0 (Nat.zero_le _)
  rw [h] at h0
  unfold execPlain
  simp only [cstr_array, cut_array, h0]

theorem execPlain_cd_alone (os : OS) (replay : Shell → Buf → Result) (st : Shell)
    (cmd : List Char) (h : runs DELIMITER cmd = [['c', 'd']]) :
    execPlain os replay st (Buf.array cmd) = Result.returned INVALID_CMD st := by
  have h0 := argAt_parseArgs DELIMITER cmd [] 0 (Nat.zero_le _)
  have h1 := argAt_parseArgs DELIMITER cmd [] 1 (by decide)
  rw [h] at h0 h1
  unfold execPlain
  simp only [cstr_array, cut_array, h0, h1, List.get?_cons_zero, List.get?_cons_succ,
    List.get?_nil, if_true]

theorem not_mem_of_runs (delim s : List Char) (c : Char) (hd : c ∉ delim)
    (h : ∀ t ∈ runs delim s, c ∉ t) : c ∉ s := by
  intro hc
  obtain ⟨t, ht, hct⟩ := mem_runs_of_mem delim s c hc hd
  exact h t ht hct

theorem execCmd_of_pipe (os : OS) (n : Nat) (st : Shell) (cmd : List Char) (h : '|' ∈ cmd) :
    execCmd os (n + 1) st (Buf.array cmd) = execPipe os st (Buf.array cmd) := by
  simp only [execCmd, cstr_array, h, if_true]

theorem execCmd_of_input (os : OS) (n : Nat) (st : Shell) (cmd : List Char)
    (h1 : '|' ∉ cmd) (h2 : '<' ∈ cmd) :
    execCmd os (n + 1) st (Buf.array cmd) = execRedir os st (Buf.array cmd) 0 := by
  simp only [execCmd, cstr_array, h1, h2, if_true, if_false]

theorem execCmd_of_output (os : OS) (n : Nat) (st : Shell) (cmd : List Char)
    (h1 : '|' ∉ cmd) (h2 : '<' ∉ cmd) (h3 : '>' ∈ cmd) :
    execCmd os (n + 1) st (Buf.array cmd) = execRedir os st (Buf.array cmd) 1 := by
  simp only [execCmd, cstr_array, h1, h2, h3, if_true, if_false]

theorem execCmd_plain (os : OS) (n : Nat) (st : Shell) (cmd : List Char)
    (h1 : '|' ∉ cmd) (h2 : '<' ∉ cmd) (h3 : '>' ∉ cmd) :
    execCmd os (n + 1) st (Buf.array cmd) = execPlain os (execCmd os n) st (Buf.array cmd) := by
  simp only [execCmd, cstr_array, h1, h2, h3, if_false]

/-! ## The history and the depth of the recursion -/

theorem execPipe_keepsHistory (os : OS) (st : Shell) (cmd : List Char) :
    (execPipe os st (Buf.array cmd)).keepsHistory st.history := by
  unfold execPipe
  simp only [cstr_array, cut_array]
  split_ifs <;> rfl

theorem execRedir_keepsHistory (os : OS) (st : Shell) (cmd : List Char) (mode : Int) :
    (execRedir os st (Buf.array cmd) mode).keepsHistory st.history := by
  unfold execRedir
  simp only [cstr_array, cut_array]
  split
  · rfl
  · split_ifs <;> rfl

theorem execPlain_keepsHistory (os : OS) (replay : Shell → Buf → Result) (st : Shell)
    (cmd : List Char) (h : (replay st (Buf.array st.history)).keepsHistory st.history) :
    (execPlain os replay st (Buf.array cmd)).keepsHistory st.history := by
  unfold execPlain
  simp only [cstr_array, cut_array]
  split
  · rfl
  · split_ifs
    · split <;> rfl
    · rfl
    · rfl
    · cases hr : replay st (Buf.array st.history) with
      | returned c s => rw [hr] at h; exact h
      | exited c s => rw [hr] at h; exact h
      | outOfFuel => trivial
    · rfl
    · rfl
    · rfl

/-- A call of `execCmd` on a local array does not change the history buffer. -/
theorem execCmd_keepsHistory (os : OS) :
    ∀ (n : Nat) (st : Shell) (cmd : List Char),
      (execCmd os n st (Buf.array cmd)).keepsHistory st.history := by
  intro n
  induction n with
  | zero => intro st cmd; trivial
  | succ n ih =>
    intro st cmd
    unfold execCmd
    simp only [cstr_array]
    split_ifs
    · exact execPipe_keepsHistory os st cmd
    · exact execRedir_keepsHistory os st cmd 0
    · exact execRedir_keepsHistory os st cmd 1
    · exact execPlain_keepsHistory os _ st cmd (ih st st.history)

theorem execPipe_ne_outOfFuel (os : OS) (st : Shell) (cmd : Buf) :
    execPipe os st cmd ≠ Result.outOfFuel := by
  unfold execPipe
  simp only
  split_ifs <;> simp

theorem execRedir_ne_outOfFuel (os : OS) (st : Shell) (cmd : Buf) (mode : Int) :
    execRedir os st cmd mode ≠ Result.outOfFuel := by
  unfold execRedir
  simp only
  split
  · simp
  · split_ifs <;> simp

/-- The `!!` branch of `execCmd`. -/
theorem execPlain_replay (os : OS) (replay : Shell → Buf → Result) (st : Shell)
    (cmd : List Char) (h : argAt (parseArgs (some cmd) DELIMITER []).1 0 = some ['!', '!']) :
    execPlain os replay st (Buf.array cmd) =
      if st.history.length = 0 then
        Result.returned INVALID_CMD { st with out := st.out ++ [Msg.noHistory] }
      else
        match replay st (Buf.array st.history) with
        | Result.returned _ st1 => Result.returned INVALID_CMD st1
        | Result.exited status st1 => Result.exited status st1
        | Result.outOfFuel => Result.outOfFuel := by
  unfold execPlain
  simp only [cstr_array, cut_array, h]
  rw [if_neg (by decide), if_neg (by decide), if_pos trivial]
  rfl

/-- Outside its `!!` branch `execCmd` makes no recursive call. -/
theorem execPlain_no_replay (os : OS) (r1 r2 : Shell → Buf → Result) (st : Shell)
    (cmd : List Char) (h : argAt (parseArgs (some cmd) DELIMITER []).1 0 ≠ some ['!', '!']) :
    execPlain os r1 st (Buf.array cmd) = execPlain os r2 st (Buf.array cmd) ∧
    execPlain os r1 st (Buf.array cmd) ≠ Result.outOfFuel := by
  unfold execPlain
  simp only [cstr_array, cut_array]
  split
  · simp
  · rename_i a0 ha
    rw [ha] at h
    have hne : a0 ≠ ['!', '!'] := fun e => h (by rw [e])
    split_ifs
    · split <;> simp
    · simp
    · simp
    · simp
    · simp

theorem takesReplay_iff (cmd : List Char) :
    takesReplay cmd = true ↔
      '|' ∉ cmd ∧ '<' ∉ cmd ∧ '>' ∉ cmd ∧ (runs DELIMITER cmd).head? = some ['!', '!'] := by
  unfold takesReplay
  rw [argAt_parseArgs DELIMITER cmd [] 0 (Nat.zero_le _), List.get?_zero]
  simp [and_assoc]

theorem takesReplay_false_iff (cmd : List Char) :
    takesReplay cmd = false ↔
      ('|' ∈ cmd ∨ '<' ∈ cmd ∨ '>' ∈ cmd ∨ (runs DELIMITER cmd).head? ≠ some ['!', '!']) := by
  rw [← Bool.not_eq_true, takesReplay_iff]
  tauto

theorem argAt_of_takesReplay (cmd : List Char) (h : takesReplay cmd = true) :
    '|' ∉ cmd ∧ '<' ∉ cmd ∧ '>' ∉ cmd ∧
      argAt (parseArgs (some cmd) DELIMITER []).1 0 = some ['!', '!'] := by
  unfold takesReplay at h
  simpa [and_assoc] using h

/-- A line that is not replayed runs at every depth as it does at depth one,
and does return or exit. -/
theorem execCmd_no_replay (os : OS) (n : Nat) (st : Shell) (cmd : List Char)
    (h : takesReplay cmd = false) :
    execCmd os (n + 1) st (Buf.array cmd) = execCmd os 1 st (Buf.array cmd) ∧
    execCmd os 1 st (Buf.array cmd) ≠ Result.outOfFuel := by
  by_cases h1 : '|' ∈ cmd
  · rw [execCmd_of_pipe os n st cmd h1, execCmd_of_pipe os 0 st cmd h1]
    exact ⟨rfl, execPipe_ne_outOfFuel os st _⟩
  by_cases h2 : '<' ∈ cmd
  · rw [execCmd_of_input os n st cmd h1 h2, execCmd_of_input os 0 st cmd h1 h2]
    exact ⟨rfl, execRedir_ne_outOfFuel os st _ 0⟩
  by_cases h3 : '>' ∈ cmd
  · rw [execCmd_of_output os n st cmd h1 h2 h3, execCmd_of_output os 0 st cmd h1 h2 h3]
    exact ⟨rfl, execRedir_ne_outOfFuel os st _ 1⟩
  have hne : argAt (parseArgs (some cmd) DELIMITER []).1 0 ≠ some ['!', '!'] := by
    intro e
    have : takesReplay cmd = true := by simp [takesReplay, h1, h2, h3, e]
    rw [h] at this
    cases this
  rw [execCmd_plain os n st cmd h1 h2 h3, execCmd_plain os 0 st cmd h1 h2 h3]
  exact ⟨(execPlain_no_replay os (execCmd os n) (execCmd os 0) st cmd hne).1,
    (execPlain_no_replay os (execCmd os 0) (execCmd os 0) st cmd hne).2⟩

/-- A replayed line: what `execCmd` does at each depth. -/
theorem execCmd_takesReplay (os : OS) (n : Nat) (st : Shell) (cmd : List Char)
    (h : takesReplay cmd = true) :
    execCmd os (n + 1) st (Buf.array cmd) =
      if st.history.length = 0 then
        Result.returned INVALID_CMD { st with out := st.out ++ [Msg.noHistory] }
      else
        match execCmd os n st (Buf.array st.history) with
        | Result.returned _ st1 => Result.returned INVALID_CMD st1
        | Result.exited status st1 => Result.exited status st1
        | Result.outOfFuel => Result.outOfFuel := by
  obtain ⟨h1, h2, h3, h4⟩ := argAt_of_takesReplay cmd h
  rw [execCmd_plain os n st cmd h1 h2 h3]
  exact execPlain_replay os _ st cmd h4

/-- A replayed line never returns anything but `INVALID_CMD`. -/
theorem execCmd_takesReplay_code (os : OS) (n : Nat) (st : Shell) (cmd : List Char)
    (h : takesReplay cmd = true) (code : Int) (st1 : Shell)
    (hres : execCmd os n st (Buf.array cmd) = Result.returned code st1) :
    code = INVALID_CMD := by
  cases n with
  | zero => cases hres
  | succ n =>
    rw [execCmd_takesReplay os n st cmd h] at hres
    split_ifs at hres
    · cases hres; rfl
    · split at hres
      · cases hres; rfl
      · cases hres
      · cases hres

/-- One iteration of the loop of `main` keeps the stored history a line that
is not replayed. -/
theorem saved_line_no_replay (os : OS) (fuel : Nat) (st : Shell) (cmd : List Char)
    (hst : takesReplay st.history = false) (code : Int) (st1 : Shell)
    (hres : execCmd os fuel st (Buf.array cmd) = Result.returned code st1) :
    takesReplay (if code ≠ INVALID_CMD then saveHistory cmd st1 else st1).history = false := by
  have hk := execCmd_keepsHistory os fuel st cmd
  rw [hres] at hk
  split_ifs with hc
  · cases ht : takesReplay cmd with
    | false => exact ht
    | true => exact absurd (execCmd_takesReplay_code os fuel st cmd ht code st1 hres) hc
  · have : st1.history = st.history := hk
    rw [this]; exact hst

theorem mainLoop_history (os : OS) (fuel : Nat) :
    ∀ (lines : List (List Char)) (st : Shell), takesReplay st.history = false →
      takesReplay (mainLoop os fuel lines st).history = false := by
  intro lines
  induction lines with
  | nil => intro st h; exact h
  | cons cmd rest ih =>
    intro st h
    unfold mainLoop
    cases hres : execCmd os fuel st (Buf.array cmd) with
    | returned code st1 =>
      have hs := saved_line_no_replay os fuel st cmd h code st1 hres
      simp only
      generalize (if code ≠ INVALID_CMD then saveHistory cmd st1 else st1) = st2 at hs ⊢
      split_ifs
      · exact ih st2 hs
      · exact hs
    | exited status st1 =>
      have hk := execCmd_keepsHistory os fuel st cmd
      rw [hres] at hk
      have : st1.history = st.history := hk
      simp only [this, h]
    | outOfFuel => exact h

/-- With a stored history that is not replayed, depth two is enough for every
line, and a deeper recursion changes nothing. -/
theorem execCmd_depth_two (os : OS) (k : Nat) (st : Shell) (cmd : List Char)
    (hst : takesReplay st.history = false) :
    execCmd os (k + 2) st (Buf.array cmd) = execCmd os 2 st (Buf.array cmd) ∧
    execCmd os 2 st (Buf.array cmd) ≠ Result.outOfFuel := by
  cases ht : takesReplay cmd with
  | false =>
    have h1 := execCmd_no_replay os (k + 1) st cmd ht
    have h2 := execCmd_no_replay os 1 st cmd ht
    refine ⟨by rw [h1.1, h2.1], by rw [h2.1]; exact h2.2⟩
  | true =>
    rw [execCmd_takesReplay os (k + 1) st cmd ht, execCmd_takesReplay os 1 st cmd ht,
      (execCmd_no_replay os k st st.history hst).1]
    refine ⟨rfl, ?_⟩
    have hne := (execCmd_no_replay os 0 st st.history hst).2
    split_ifs
    · simp
    · cases hr : execCmd os 1 st (Buf.array st.history) with
      | returned c s => simp
      | exited c s => simp
      | outOfFuel => exact absurd hr hne

theorem mainLoop_depth_two (os : OS) (k : Nat) :
    ∀ (lines : List (List Char)) (st : Shell), takesReplay st.history = false →
      mainLoop os (k + 2) lines st = mainLoop os 2 lines st := by
  intro lines
  induction lines with
  | nil => intro st _; rfl
  | cons cmd rest ih =>
    intro st h
    unfold mainLoop
    rw [(execCmd_depth_two os k st cmd h).1]
    cases hres : execCmd os 2 st (Buf.array cmd) with
    | returned code st1 =>
      have hs := saved_line_no_replay os 2 st cmd h code st1 hres
      simp only
      generalize (if code ≠ INVALID_CMD then saveHistory cmd st1 else st1) = st2 at hs ⊢
      split_ifs
      · exact ih st2 hs
      · rfl
    | exited status st1 => rfl
    | outOfFuel => rfl

/-! ## The launch of a plain command -/

/-- The loop that looks for `&` cuts the argument vector just before the first
token `&` and clears `shouldWait` exactly when there is such a token. -/
theorem scanBackground_spec :
    ∀ (args : Args) (k : Nat), args.length ≤ k →
      tokensOf (scanBackground k args).1
          = (tokensOf args).takeWhile (fun t => decide (t ≠ ['&'])) ∧
      (scanBackground k args).2 = decide (['&'] ∉ tokensOf args) := by
  intro args
  induction args with
  | nil =>
    intro k _
    cases k <;> simp [scanBackground, tokensOf]
  | cons a rest ih =>
    intro k hk
    cases k with
    | zero => simp at hk
    | succ k =>
      cases a with
      | none => simp [scanBackground, tokensOf]
      | some t =>
        have hrest := ih k (by simpa using hk)
        by_cases ht : t = ['&']
        · simp [scanBackground, tokensOf, ht]
        · have ht2 : ¬ (['&'] = t) := fun e => ht e.symm
          simp [scanBackground, tokensOf, ht, ht2, hrest.1, hrest.2]

/-- The child of a plain command: it calls `execvp` with the strings of its
argument vector; it is killed there when the vector is empty, becomes the
program when `execvp` succeeds, and prints the error and exits with status 1
otherwise. -/
theorem execvpOrDie_spec (os : OS) (pid : Nat) (args : Args) :
    (execvpOrDie os pid args []).1 =
      (if tokensOf args ≠ [] ∧ os.execOk pid = false then
        [Act.execvp (tokensOf args), Act.print Msg.cannotExec]
      else [Act.execvp (tokensOf args)]) ∧
    (execvpOrDie os pid args []).2 =
      (if tokensOf args = [] then Fate.killed
      else if os.execOk pid = true then Fate.image (tokensOf args) else Fate.exit 1) := by
  unfold execvpOrDie
  by_cases h : tokensOf args = []
  · simp [h]
  · cases he : os.execOk pid <;> simp [h, he]

theorem length_parseArgs (delim s sv : List Char) :
    (parseArgs (some s) delim sv).1.length ≤ MAX_ARGS := by
  rw [(parseArgs_spec delim s sv).1]
  exact length_slotsOf _ _

/-! ## Claims on the tokenizer -/

/-- C5: for every line of at most `MAX_LENGTH` characters (which covers every
string a buffer of the shell can hold) and every delimiter set, each token returned by `parseArgs` is
non-empty and contains no delimiter character, and the returned tokens are,
in order, the maximal delimiter-free runs of characters of the line.  (For a
line of any length the tokens are non-empty, free of delimiters, and the first
`MAX_ARGS` runs of the line.) -/
theorem parseArgs_tokens (line delim sv : List Char) :
    (∀ t ∈ tokensOf (parseArgs (some line) delim sv).1, t ≠ [] ∧ ∀ c ∈ t, c ∉ delim) ∧
    tokensOf (parseArgs (some line) delim sv).1 = (runs delim line).take MAX_ARGS ∧
    (line.length ≤ MAX_LENGTH →
      tokensOf (parseArgs (some line) delim sv).1 = runs delim line) := by
  have htok : tokensOf (parseArgs (some line) delim sv).1 = (runs delim line).take MAX_ARGS := by
    rw [(parseArgs_spec delim line sv).1, tokensOf_slotsOf]
    rfl
  refine ⟨?_, htok, ?_⟩
  · intro t ht
    rw [htok] at ht
    exact runs_clean_of_mem delim line.length line (Nat.le_refl _) t (List.mem_of_mem_take ht)
  · intro hlen
    rw [htok]
    apply List.take_of_length_le
    have := runs_length_le delim line.length line (Nat.le_refl _)
    simp only [MAX_LENGTH] at hlen
    simp only [MAX_ARGS, MAX_LENGTH]
    omega

/-- C5, witness: the theorem at the line "ls  -l\n". -/
theorem parseArgs_tokens_witness :
    ['l', 's', ' ', ' ', '-', 'l', '\n'].length ≤ MAX_LENGTH ∧
    tokensOf (parseArgs (some ['l', 's', ' ', ' ', '-', 'l', '\n']) DELIMITER []).1
      = runs DELIMITER ['l', 's', ' ', ' ', '-', 'l', '\n'] :=
  ⟨by decide, (parseArgs_tokens ['l', 's', ' ', ' ', '-', 'l', '\n'] DELIMITER []).2.2 (by decide)⟩

/-- C7, counterexample: on a line of 255 characters made of 128 words,
`parseArgs` stores 128 tokens and fills all 128 slots of the argument vector
without an end marker. -/
theorem parseArgs_fills_vector :
    (wordsLine 127 ++ ['a']).length = 255 ∧
    (tokensOf (parseArgs (some (wordsLine 127 ++ ['a'])) DELIMITER []).1).length = 128 ∧
    (parseArgs (some (wordsLine 127 ++ ['a'])) DELIMITER []).1.length = 128 ∧
    none ∉ (parseArgs (some (wordsLine 127 ++ ['a'])) DELIMITER []).1 := by
  set_option maxRecDepth 100000 in decide

/-- C7, amended: for every line and delimiter set `parseArgs` writes at most
`MAX_ARGS` = 128 slots, so it never writes outside the argument vector; and for
every line of fewer than `MAX_LENGTH` = 255 characters (what a buffer of
`MAX_LENGTH` bytes holds) it stores at most `MAX_ARGS - 1` = 127 tokens and the
slot after the last token, at an index no greater than 127, holds the end
marker `NULL`. -/
theorem parseArgs_capacity (line delim sv : List Char) :
    (parseArgs (some line) delim sv).1.length ≤ MAX_ARGS ∧
    (line.length < MAX_LENGTH →
      (tokensOf (parseArgs (some line) delim sv).1).length ≤ MAX_ARGS - 1 ∧
      (parseArgs (some line) delim sv).1.get?
        (tokensOf (parseArgs (some line) delim sv).1).length = some none) := by
  rw [(parseArgs_spec delim line sv).1]
  refine ⟨length_slotsOf _ _, ?_⟩
  intro hlen
  have hr : (runs delim line).length ≤ MAX_ARGS - 1 := by
    have := runs_length_le delim line.length line (Nat.le_refl _)
    simp only [MAX_LENGTH] at hlen
    simp only [MAX_ARGS, MAX_LENGTH]
    omega
  have hs : slotsOf (MAX_ARGS - 1) (runs delim line) = (runs delim line).map some ++ [none] := by
    simp [slotsOf, hr]
  rw [hs, tokensOf_map_some]
  refine ⟨hr, ?_⟩
  rw [List.get?_eq_getElem?, List.getElem?_append_right (by simp)]
  simp

/-- C7, witness: the theorem at the line "ls -l\n". -/
theorem parseArgs_capacity_witness :
    ['l', 's', ' ', '-', 'l', '\n'].length < MAX_LENGTH ∧
    (tokensOf (parseArgs (some ['l', 's', ' ', '-', 'l', '\n']) DELIMITER []).1).length
      ≤ MAX_ARGS - 1 ∧
    (parseArgs (some ['l', 's', ' ', '-', 'l', '\n']) DELIMITER []).1.get?
      (tokensOf (parseArgs (some ['l', 's', ' ', '-', 'l', '\n']) DELIMITER []).1).length
        = some none :=
  ⟨by decide, (parseArgs_capacity ['l', 's', ' ', '-', 'l', '\n'] DELIMITER []).2 (by decide)⟩

/-- C6, counterexample: on "a|b|c" the second part `splitCmd` returns is "b",
not the remainder "b|c" of the line after the first `|`; on "|a" the first
part is "a" although the text before the first `|` is empty. -/
theorem splitCmd_not_splitAtFirst :
    ('|' ∈ ['a', '|', 'b', '|', 'c'] ∧
      (splitCmd ['a', '|', 'b', '|', 'c'] ['|']).1 = (some ['a'], some ['b']) ∧
      splitAtFirst ['a', '|', 'b', '|', 'c'] ['|'] = (some ['a'], some ['b', '|', 'c'])) ∧
    ('|' ∈ ['|', 'a'] ∧
      (splitCmd ['|', 'a'] ['|']).1 = (some ['a'], none) ∧
      splitAtFirst ['|', 'a'] ['|'] = (none, some ['a'])) := by
  decide

/-- C6, amended: for every line, `splitCmd` returns as its first part the first
maximal delimiter-free run of the line and as its second part the second such
run (a part is absent exactly when the line has no such run); when the line
does not start with a delimiter character and has exactly one, these are the
text before that character and the text after it (absent exactly when that
text is empty). -/
theorem splitCmd_parts (line delim : List Char) :
    (splitCmd line delim).1 = ((runs delim line).get? 0, (runs delim line).get? 1) ∧
    (∀ a d b, line = a ++ d :: b → a ≠ [] → d ∈ delim →
      (∀ c ∈ a, c ∉ delim) → (∀ c ∈ b, c ∉ delim) →
      (splitCmd line delim).1 = (some a, if b = [] then none else some b) ∧
      (splitCmd line delim).1 = splitAtFirst line delim) := by
  refine ⟨(splitCmd_spec line delim).1, ?_⟩
  intro a d b hline ha hd hca hcb
  have h1 : (splitCmd line delim).1 = (some a, if b = [] then none else some b) := by
    rw [(splitCmd_spec line delim).1, hline, runs_append_sep delim a d b hd,
      runs_clean delim a ha hca]
    by_cases hb : b = []
    · simp [hb, runs_nil]
    · simp [hb, runs_clean delim b hb hcb]
  refine ⟨h1, ?_⟩
  rw [h1, hline]
  unfold splitAtFirst
  have htake : (a ++ d :: b).takeWhile (fun c => !decide (c ∈ delim)) = a := by
    rw [List.takeWhile_append_of_pos (by simpa using hca)]
    simp [hd]
  have hdrop : (a ++ d :: b).dropWhile (fun c => !decide (c ∈ delim)) = d :: b := by
    rw [List.dropWhile_append_of_pos (by simpa using hca)]
    simp [hd]
  simp [htake, hdrop, ha]

/-- C6, witness: the theorem at the line "ls |wc" split at `|`. -/
theorem splitCmd_parts_witness :
    (splitCmd ['l', 's', ' ', '|', 'w', 'c'] ['|']).1
      = (some ['l', 's', ' '], if ['w', 'c'] = [] then none else some ['w', 'c']) ∧
    (splitCmd ['l', 's', ' ', '|', 'w', 'c'] ['|']).1
      = splitAtFirst ['l', 's', ' ', '|', 'w', 'c'] ['|'] :=
  (splitCmd_parts ['l', 's', ' ', '|', 'w', 'c'] ['|']).2 ['l', 's', ' '] '|' ['w', 'c']
    (by decide) (by decide) (by decide) (by decide) (by decide)

/-! ## Claims on the classifier -/

/-- C1: for every input line, `execCmd` dispatches by the fixed priority pipe,
input-redirect, output-redirect, plain: a line containing `|` is handled by
`execPipe` whatever else it contains; otherwise a line containing `<` by
`execRedir` in input mode; otherwise a line containing `>` by `execRedir` in
output mode; and a line with none of the three by the plain-command path. -/
theorem execCmd_dispatch (os : OS) (n : Nat) (st : Shell) (line : List Char) :
    ('|' ∈ line → execCmd os (n + 1) st (Buf.array line) = execPipe os st (Buf.array line)) ∧
    ('|' ∉ line → '<' ∈ line →
      execCmd os (n + 1) st (Buf.array line) = execRedir os st (Buf.array line) 0) ∧
    ('|' ∉ line → '<' ∉ line → '>' ∈ line →
      execCmd os (n + 1) st (Buf.array line) = execRedir os st (Buf.array line) 1) ∧
    ('|' ∉ line → '<' ∉ line → '>' ∉ line →
      execCmd os (n + 1) st (Buf.array line)
        = execPlain os (execCmd os n) st (Buf.array line)) :=
  ⟨execCmd_of_pipe os n st line, execCmd_of_input os n st line,
    execCmd_of_output os n st line, execCmd_plain os n st line⟩

/-- C1, witness: the four routes at the lines "a|b>c", "a<b>c", "a>b" and "a b". -/
theorem execCmd_dispatch_witness :
    execCmd osAllOk 1 initial (Buf.array ['a', '|', 'b', '>', 'c'])
      = execPipe osAllOk initial (Buf.array ['a', '|', 'b', '>', 'c']) ∧
    execCmd osAllOk 1 initial (Buf.array ['a', '<', 'b', '>', 'c'])
      = execRedir osAllOk initial (Buf.array ['a', '<', 'b', '>', 'c']) 0 ∧
    execCmd osAllOk 1 initial (Buf.array ['a', '>', 'b'])
      = execRedir osAllOk initial (Buf.array ['a', '>', 'b']) 1 ∧
    execCmd osAllOk 1 initial (Buf.array ['a', ' ', 'b'])
      = execPlain osAllOk (execCmd osAllOk 0) initial (Buf.array ['a', ' ', 'b']) :=
  ⟨(execCmd_dispatch osAllOk 0 initial ['a', '|', 'b', '>', 'c']).1 (by decide),
   (execCmd_dispatch osAllOk 0 initial ['a', '<', 'b', '>', 'c']).2.1 (by decide) (by decide),
   (execCmd_dispatch osAllOk 0 initial ['a', '>', 'b']).2.2.1 (by decide) (by decide) (by decide),
   (execCmd_dispatch osAllOk 0 initial ['a', ' ', 'b']).2.2.2 (by decide) (by decide) (by decide)⟩

/-- C2, counterexample: in "|a|b\n" the left side of the first `|` is empty, and
in "<a>b\n" the command segment before the first `<` is empty, so both lines
have an empty command; yet with every system call succeeding `execCmd` returns
`SUCCESS` and has created children: `strtok` skips the leading `|` or `<` and
takes `a` for the command. -/
theorem execCmd_malformed_not_invalid :
    (runs DELIMITER [] = [] ∧
      execCmd osAllOk 1 initial (Buf.array ['|', 'a', '|', 'b', '\n'])
        = Result.returned SUCCESS
            { initial with
              children := [⟨1, [Act.close 3, Act.dup2 4 1, Act.execvp [['a']]], Fate.image [['a']]⟩,
                ⟨2, [Act.close 4, Act.dup2 3 0, Act.execvp [['b']]], Fate.image [['b']]⟩]
              waited := [1, 2]
              pipes := 1
              forks := 2 }) ∧
    (runs DELIMITER [] = [] ∧
      execCmd osAllOk 1 initial (Buf.array ['<', 'a', '>', 'b', '\n'])
        = Result.returned SUCCESS
            { initial with
              children := [⟨1, [Act.openRead ['b'] (some 3), Act.dup2 3 0, Act.close 3,
                Act.execvp [['a']]], Fate.image [['a']]⟩]
              waited := [1]
              forks := 1 }) := by
  decide

/-- C2, amended: for every input line (fewer than `MAX_LENGTH` characters, as
`fgets` delivers it) and every state, `execCmd` returns `INVALID_CMD` and leaves
the state as it was, so that no child process is created, in each of these
cases: the whole line has no token; the line is `cd` with no operand; the
line has a `|` and the text after its first `|` has no token, or the text
before its first `|` has no token and either is not empty or is followed by no
further `|`; the line has no `|` and the text after its first `<` or `>` has
no token (the target path is missing); the line has no `|`, begins with `<`
or `>` and has no further `<` or `>` (the command is missing). -/
theorem execCmd_malformed (os : OS) (n : Nat) (st : Shell) (line : List Char)
    (hlen : line.length < MAX_LENGTH)
    (h : runs DELIMITER line = [] ∨
      runs DELIMITER line = [['c', 'd']] ∨
      (∃ l r, line = l ++ '|' :: r ∧ '|' ∉ l ∧
        (runs DELIMITER r = [] ∨ (runs DELIMITER l = [] ∧ (l ≠ [] ∨ '|' ∉ r)))) ∨
      ('|' ∉ line ∧ ∃ l c r, line = l ++ c :: r ∧ (c = '<' ∨ c = '>') ∧
        '<' ∉ l ∧ '>' ∉ l ∧ runs DELIMITER r = []) ∨
      ('|' ∉ line ∧ ∃ c r, line = c :: r ∧ (c = '<' ∨ c = '>') ∧ '<' ∉ r ∧ '>' ∉ r)) :
    execCmd os (n + 1) st (Buf.array line) = Result.returned INVALID_CMD st := by
  have hredir : ∀ c, (c = '<' ∨ c = '>') → '|' ∉ line → c ∈ line →
      argAt (parseParts line ['<', '>']).2 0 = none →
      execCmd os (n + 1) st (Buf.array line) = Result.returned INVALID_CMD st := by
    intro c hc hpipe hin hfile
    by_cases hlt : '<' ∈ line
    · rw [execCmd_of_input os n st line hpipe hlt]
      exact execRedir_invalid os st line 0 hfile
    · have hgt : '>' ∈ line := by
        rcases hc with rfl | rfl
        · exact absurd hin hlt
        · exact hin
      rw [execCmd_of_output os n st line hpipe hlt hgt]
      exact execRedir_invalid os st line 1 hfile
  have hsep : ∀ c, (c = '<' ∨ c = '>') → c ∈ ['<', '>'] := by
    intro c hc; rcases hc with rfl | rfl <;> simp
  have hclean : ∀ t : List Char, '<' ∉ t → '>' ∉ t → ∀ x ∈ t, x ∉ ['<', '>'] := by
    intro t h1 h2 x hx
    simp only [List.mem_cons, List.mem_singleton, List.not_mem_nil, or_false]
    rintro (rfl | rfl)
    · exact h1 hx
    · exact h2 hx
  have hblank : ∀ t : List Char, runs DELIMITER t = [] → ∀ c, c ∉ DELIMITER → c ∉ t :=
    fun t ht c hc => not_mem_of_runs DELIMITER t c hc (by simp [ht])
  rcases h with h | h | ⟨l, r, hline, hl, hside⟩ |
    ⟨hpipe, l, c, r, hline, hc, hl1, hl2, hr⟩ | ⟨hpipe, c, r, hline, hc, hr1, hr2⟩
  · rw [execCmd_plain os n st line (hblank line h _ (by decide)) (hblank line h _ (by decide))
      (hblank line h _ (by decide))]
    exact execPlain_no_command os _ st line (by simp [h])
  · have hno : ∀ c, c ∉ DELIMITER → c ∉ ['c', 'd'] → c ∉ line := fun c hc hcd =>
      not_mem_of_runs DELIMITER line c hc (by simpa [h] using hcd)
    rw [execCmd_plain os n st line (hno _ (by decide) (by decide))
      (hno _ (by decide) (by decide)) (hno _ (by decide) (by decide))]
    exact execPlain_cd_alone os _ st line h
  · have hin : '|' ∈ line := by simp [hline]
    have hlc : ∀ x ∈ l, x ∉ ['|'] := fun x hx => by
      simp only [List.mem_singleton]; rintro rfl; exact hl hx
    rw [execCmd_of_pipe os n st line hin]
    apply execPipe_invalid
    obtain ⟨hL, hR⟩ := parseParts_spec line ['|'] hlen
    rw [hL, hR, hline]
    rcases hside with hs | ⟨hs, hl0 | hr0⟩
    · have hrp := hblank r hs '|' (by decide)
      obtain ⟨-, h1⟩ := runs_single_sep ['|'] l '|' r (by simp) hlc
        (fun x hx => by simp only [List.mem_singleton]; rintro rfl; exact hrp hx)
      left
      rw [h1]
      by_cases e : l = [] ∨ r = []
      · simp [e, firstToken]
      · simp [e, firstToken, hs]
    · right
      rw [runs_append_sep ['|'] l '|' r (by simp), runs_clean ['|'] l hl0 hlc]
      simp [firstToken, hs]
    · obtain ⟨h0, h1⟩ := runs_single_sep ['|'] l '|' r (by simp) hlc
        (fun x hx => by simp only [List.mem_singleton]; rintro rfl; exact hr0 hx)
      rw [h0, h1]
      by_cases e : l = []
      · left; simp [e, firstToken]
      · right; simp [e, firstToken, hs]
  · apply hredir c hc hpipe (by simp [hline])
    obtain ⟨-, hR⟩ := parseParts_spec line ['<', '>'] hlen
    have hrd := all_delim_of_runs_nil DELIMITER r hr
    obtain ⟨-, h1⟩ := runs_single_sep ['<', '>'] l c r (hsep c hc) (hclean l hl1 hl2)
      (hclean r (hblank r hr _ (by decide)) (hblank r hr _ (by decide)))
    rw [hR, hline, h1]
    by_cases e : l = [] ∨ r = []
    · simp [e, firstToken]
    · simp [e, firstToken, hr]
  · apply hredir c hc hpipe (by simp [hline])
    obtain ⟨-, hR⟩ := parseParts_spec line ['<', '>'] hlen
    obtain ⟨-, h1⟩ := runs_single_sep ['<', '>'] [] c r (hsep c hc) (by simp)
      (hclean r hr1 hr2)
    rw [hR, hline]
    have h1' : (runs ['<', '>'] (c :: r)).get? 1 = none := by simpa using h1
    rw [h1']
    rfl

/-- C2, witness: the theorem at the line "ls |\n", whose right side is empty. -/
theorem execCmd_malformed_witness :
    execCmd osAllOk 1 initial (Buf.array ['l', 's', ' ', '|', '\n'])
      = Result.returned INVALID_CMD initial :=
  execCmd_malformed osAllOk 0 initial ['l', 's', ' ', '|', '\n'] (by decide)
    (Or.inr (Or.inr (Or.inl ⟨['l', 's', ' '], ['\n'], by decide, by decide,
      Or.inl (by decide)⟩)))

/-- The check missing in `execRedir`: it tests `fileParse[0]` only, not `args[0]`
as `execPipe` and the plain path do.  On " < f\n", whose command segment is
blank, it forks; the child opens the file and is killed in `execvp(NULL, ..)`,
and the shell waits for it and returns `SUCCESS`. -/
theorem execRedir_blank_command_forks :
    execCmd osAllOk 1 initial (Buf.array [' ', '<', ' ', 'f', '\n'])
      = Result.returned SUCCESS
          { initial with
            children := [⟨1, [Act.openRead ['f'] (some 3), Act.dup2 3 0, Act.close 3,
              Act.execvp []], Fate.killed⟩]
            waited := [1]
            forks := 1 } := by
  decide

/-! ## Claims on the plain executor -/

/-- Why `execCmd` copies the history before it runs it again: run on the
`history` buffer itself, it cuts the stored line "ls -l\n" down to "ls". -/
theorem execCmd_on_history_cuts_it :
    execCmd osAllOk 1 (saveHistory ['l', 's', ' ', '-', 'l', '\n'] initial) Buf.history
      = Result.returned SUCCESS
          { initial with
            history := ['l', 's']
            children := [⟨1, [Act.execvp [['l', 's'], ['-', 'l']]],
              Fate.image [['l', 's'], ['-', 'l']]⟩]
            waited := [1]
            forks := 1 } := by
  decide

/-- C3: for every line with no structural character whose first token is `!!`:
with an empty history `execCmd` appends the no-history notice to the output,
changes nothing else (no process is created) and returns `INVALID_CMD`;
otherwise it runs the full `execCmd` on a local array holding a copy of the
stored line, the `history` buffer is unchanged by that call, and whatever code
the inner call returns (`EXIT` included) the outer call returns `INVALID_CMD`;
if the inner call ends the shell process, so does the outer one.  The inner
call does return or end the process, at every depth, when the stored line is
not itself a `!!` line. -/
theorem execCmd_replay (os : OS) (n : Nat) (st : Shell) (line : List Char)
    (h1 : '|' ∉ line) (h2 : '<' ∉ line) (h3 : '>' ∉ line)
    (hfirst : (runs DELIMITER line).head? = some ['!', '!']) :
    (st.history = [] →
      execCmd os (n + 1) st (Buf.array line)
        = Result.returned INVALID_CMD { st with out := st.out ++ [Msg.noHistory] }) ∧
    (st.history ≠ [] →
      (∀ code st1, execCmd os n st (Buf.array st.history) = Result.returned code st1 →
        execCmd os (n + 1) st (Buf.array line) = Result.returned INVALID_CMD st1 ∧
        st1.history = st.history) ∧
      (∀ status st1, execCmd os n st (Buf.array st.history) = Result.exited status st1 →
        execCmd os (n + 1) st (Buf.array line) = Result.exited status st1) ∧
      (takesReplay st.history = false →
        (∃ st1, execCmd os (n + 2) st (Buf.array line) = Result.returned INVALID_CMD st1 ∧
          st1.history = st.history) ∨
        (∃ status st1, execCmd os (n + 2) st (Buf.array line) = Result.exited status st1))) := by
  have ht : takesReplay line = true := (takesReplay_iff line).mpr ⟨h1, h2, h3, hfirst⟩
  refine ⟨?_, ?_⟩
  · intro hh
    rw [execCmd_takesReplay os n st line ht]
    simp [hh]
  · intro hh
    have hlen : ¬ st.history.length = 0 := fun e => hh (List.length_eq_zero.mp e)
    refine ⟨?_, ?_, ?_⟩
    · intro code st1 hres
      have hk := execCmd_keepsHistory os n st st.history
      rw [hres] at hk
      rw [execCmd_takesReplay os n st line ht, if_neg hlen, hres]
      exact ⟨rfl, hk⟩
    · intro status st1 hres
      rw [execCmd_takesReplay os n st line ht, if_neg hlen, hres]
    · intro hno
      have hk := execCmd_keepsHistory os (n + 1) st st.history
      have hne : execCmd os (n + 1) st (Buf.array st.history) ≠ Result.outOfFuel := by
        rw [(execCmd_no_replay os n st st.history hno).1]
        exact (execCmd_no_replay os n st st.history hno).2
      rw [execCmd_takesReplay os (n + 1) st line ht, if_neg hlen]
      cases hr : execCmd os (n + 1) st (Buf.array st.history) with
      | returned c s =>
        rw [hr] at hk
        exact Or.inl ⟨s, rfl, hk⟩
      | exited c s => exact Or.inr ⟨c, s, rfl⟩
      | outOfFuel => exact absurd hr hne

/-- C3, witness: the line "!!\n" with an empty history, and with the history
"exit\n", whose replay returns `EXIT`. -/
theorem execCmd_replay_witness :
    execCmd osAllOk 2 initial (Buf.array ['!', '!', '\n'])
      = Result.returned INVALID_CMD { initial with out := initial.out ++ [Msg.noHistory] } ∧
    (execCmd osAllOk 2 (saveHistory ['e', 'x', 'i', 't', '\n'] initial)
        (Buf.array ['!', '!', '\n'])
        = Result.returned INVALID_CMD (saveHistory ['e', 'x', 'i', 't', '\n'] initial) ∧
      (saveHistory ['e', 'x', 'i', 't', '\n'] initial).history
        = (saveHistory ['e', 'x', 'i', 't', '\n'] initial).history) :=
  ⟨(execCmd_replay osAllOk 1 initial ['!', '!', '\n'] (by decide) (by decide) (by decide)
      (by decide)).1 (by decide),
   ((execCmd_replay osAllOk 1 (saveHistory ['e', 'x', 'i', 't', '\n'] initial) ['!', '!', '\n']
      (by decide) (by decide) (by decide) (by decide)).2 (by decide)).1 EXIT
      (saveHistory ['e', 'x', 'i', 't', '\n'] initial) (by decide)⟩

/-- C4: for every plain line whose first token is not a built-in (`cd`, `exit`,
`!!`), whenever `fork` succeeds the outcome is `SUCCESS`, whether or not the
program can be executed; the child calls `execvp` with the token list cut just
before the first token equal to `&` (the whole list when there is none); and
`waitpid` is called on the child if and only if no `&` token is present.  The
child becomes the program when `execvp` succeeds, prints the error and exits
with status 1 when it fails, and is killed in `execvp` when the cut list is
empty (the first token is `&`). -/
theorem execCmd_launch (os : OS) (n : Nat) (st : Shell) (line a0 : List Char)
    (h1 : '|' ∉ line) (h2 : '<' ∉ line) (h3 : '>' ∉ line)
    (hfirst : (runs DELIMITER line).head? = some a0)
    (hcd : a0 ≠ ['c', 'd']) (hexit : a0 ≠ ['e', 'x', 'i', 't']) (hbang : a0 ≠ ['!', '!'])
    (hfork : os.forkOk st.forks = true) :
    ∃ ch st1, execCmd os (n + 1) st (Buf.array line) = Result.returned SUCCESS st1 ∧
      st1 = { st with
        forks := st.forks + 1
        children := st.children ++ [ch]
        waited := (if ['&'] ∈ tokensOf (parseArgs (some line) DELIMITER []).1 then st.waited
          else st.waited ++ [ch.pid]) } ∧
      ch.pid = nextPid st ∧
      ch.acts =
        (if (tokensOf (parseArgs (some line) DELIMITER []).1).takeWhile
            (fun t => decide (t ≠ ['&'])) ≠ [] ∧ os.execOk ch.pid = false then
          [Act.execvp ((tokensOf (parseArgs (some line) DELIMITER []).1).takeWhile
            (fun t => decide (t ≠ ['&']))), Act.print Msg.cannotExec]
        else
          [Act.execvp ((tokensOf (parseArgs (some line) DELIMITER []).1).takeWhile
            (fun t => decide (t ≠ ['&'])))]) ∧
      ch.fate =
        (if (tokensOf (parseArgs (some line) DELIMITER []).1).takeWhile
            (fun t => decide (t ≠ ['&'])) = [] then Fate.killed
        else if os.execOk ch.pid = true then
          Fate.image ((tokensOf (parseArgs (some line) DELIMITER []).1).takeWhile
            (fun t => decide (t ≠ ['&'])))
        else Fate.exit 1) := by
  have h0 : argAt (parseArgs (some line) DELIMITER []).1 0 = some a0 := by
    rw [argAt_parseArgs DELIMITER line [] 0 (Nat.zero_le _), List.get?_zero, hfirst]
  obtain ⟨hscan1, hscan2⟩ := scanBackground_spec (parseArgs (some line) DELIMITER []).1 MAX_ARGS
    (length_parseArgs DELIMITER line [])
  obtain ⟨hacts, hfate⟩ := execvpOrDie_spec os (nextPid st)
    (scanBackground MAX_ARGS (parseArgs (some line) DELIMITER []).1).1
  rw [hscan1] at hacts hfate
  rw [execCmd_plain os n st line h1 h2 h3]
  unfold execPlain
  simp only [cstr_array, cut_array, h0]
  rw [if_neg hcd, if_neg hexit, if_neg hbang, if_pos hfork]
  by_cases hamp : ['&'] ∈ tokensOf (parseArgs (some line) DELIMITER []).1
  · have hw : (scanBackground MAX_ARGS (parseArgs (some line) DELIMITER []).1).2 = false := by
      rw [hscan2]; simpa using hamp
    rw [hw]
    refine ⟨⟨nextPid st,
      (plainChild os (scanBackground MAX_ARGS (parseArgs (some line) DELIMITER []).1).1
        (nextPid st)).1,
      (plainChild os (scanBackground MAX_ARGS (parseArgs (some line) DELIMITER []).1).1
        (nextPid st)).2⟩, _, rfl, ?_, rfl, hacts, hfate⟩
    simp [hamp, forked]
  · have hw : (scanBackground MAX_ARGS (parseArgs (some line) DELIMITER []).1).2 = true := by
      rw [hscan2]; simpa using hamp
    rw [hw]
    refine ⟨⟨nextPid st,
      (plainChild os (scanBackground MAX_ARGS (parseArgs (some line) DELIMITER []).1).1
        (nextPid st)).1,
      (plainChild os (scanBackground MAX_ARGS (parseArgs (some line) DELIMITER []).1).1
        (nextPid st)).2⟩, _, rfl, ?_, rfl, hacts, hfate⟩
    simp [hamp, forked, waitpid]

/-- C4, witness: the line "ls & -l\n" when `fork` succeeds. -/
theorem execCmd_launch_witness :
    ∃ ch st1, execCmd osAllOk 1 initial (Buf.array ['l', 's', ' ', '&', ' ', '-', 'l', '\n'])
        = Result.returned SUCCESS st1 ∧
      st1 = { initial with
        forks := initial.forks + 1
        children := initial.children ++ [ch]
        waited := (if ['&'] ∈ tokensOf (parseArgs
            (some ['l', 's', ' ', '&', ' ', '-', 'l', '\n']) DELIMITER []).1 then initial.waited
          else initial.waited ++ [ch.pid]) } ∧
      ch.pid = nextPid initial ∧
      ch.acts =
        (if (tokensOf (parseArgs (some ['l', 's', ' ', '&', ' ', '-', 'l', '\n'])
              DELIMITER []).1).takeWhile (fun t => decide (t ≠ ['&'])) ≠ [] ∧
            osAllOk.execOk ch.pid = false then
          [Act.execvp ((tokensOf (parseArgs (some ['l', 's', ' ', '&', ' ', '-', 'l', '\n'])
            DELIMITER []).1).takeWhile (fun t => decide (t ≠ ['&']))), Act.print Msg.cannotExec]
        else
          [Act.execvp ((tokensOf (parseArgs (some ['l', 's', ' ', '&', ' ', '-', 'l', '\n'])
            DELIMITER []).1).takeWhile (fun t => decide (t ≠ ['&'])))]) ∧
      ch.fate =
        (if (tokensOf (parseArgs (some ['l', 's', ' ', '&', ' ', '-', 'l', '\n'])
              DELIMITER []).1).takeWhile (fun t => decide (t ≠ ['&'])) = [] then Fate.killed
        else if osAllOk.execOk ch.pid = true then
          Fate.image ((tokensOf (parseArgs (some ['l', 's', ' ', '&', ' ', '-', 'l', '\n'])
            DELIMITER []).1).takeWhile (fun t => decide (t ≠ ['&'])))
        else Fate.exit 1) :=
  execCmd_launch osAllOk 0 initial ['l', 's', ' ', '&', ' ', '-', 'l', '\n'] ['l', 's']
    (by decide) (by decide) (by decide) (by decide) (by decide) (by decide) (by decide)
    (by decide)

/-! ## Claims on the pipe and redirection executors -/

/-- C8, failing input: on "ls | wc\n", when `pipe` succeeds and the first `fork`
fails, `execPipe` returns `FAIL` with both pipe endpoints (descriptors 3 and 4)
still open in the shell process; when every call succeeds it returns `SUCCESS`
with the descriptors as they were. -/
theorem execPipe_fork_failure_leaks :
    execPipe osNoFork initial (Buf.array ['l', 's', ' ', '|', ' ', 'w', 'c', '\n'])
      = Result.returned FAIL
          { initial with fds := [4, 3, 0, 1, 2], out := [Msg.cannotFork], pipes := 1, forks := 1 } ∧
    execPipe osAllOk initial (Buf.array ['l', 's', ' ', '|', ' ', 'w', 'c', '\n'])
      = Result.returned SUCCESS
          { initial with
            fds := [0, 1, 2]
            children := [⟨1, [Act.close 3, Act.dup2 4 1, Act.execvp [['l', 's']]],
                Fate.image [['l', 's']]⟩,
              ⟨2, [Act.close 4, Act.dup2 3 0, Act.execvp [['w', 'c']]], Fate.image [['w', 'c']]⟩]
            waited := [1, 2]
            pipes := 1
            forks := 2 } := by
  decide

/-- C9, failing input: on "cat < f\n" and on "ls > f\n", when `fork` succeeds and
`open` fails, the shell waits for the child and returns `SUCCESS`, and the
child prints the error and does not call `execvp`, but it ends with
`exit(0)`, a zero status. -/
theorem execRedir_open_failure_exit_zero :
    execCmd osNoOpen 1 initial (Buf.array ['c', 'a', 't', ' ', '<', ' ', 'f', '\n'])
      = Result.returned SUCCESS
          { initial with
            children := [⟨1, [Act.openRead ['f'] none, Act.print Msg.cannotOpen], Fate.exit 0⟩]
            waited := [1]
            forks := 1 } ∧
    execCmd osNoOpen 1 initial (Buf.array ['l', 's', ' ', '>', ' ', 'f', '\n'])
      = Result.returned SUCCESS
          { initial with
            children := [⟨1, [Act.openAppend ['f'] none, Act.print Msg.cannotOpen], Fate.exit 0⟩]
            waited := [1]
            forks := 1 } := by
  decide

/-! ## Claims on the driver loop -/

/-- C10: in every state the loop of `main` reaches from a state with an empty
history, the stored history line is empty, or contains a structural character,
or has a first token other than `!!`: it is not a line on which `execCmd`
takes its `!!` branch.  Hence in such a state depth two is enough for every
line: a `!!` line needs one nested call of `execCmd` (with a non-empty history
depth one is not enough) and the nested call, on the stored line, needs none.
Running the loop with a greater depth changes nothing. -/
theorem replay_depth_at_most_one (os : OS) (fuel : Nat) (lines : List (List Char))
    (st0 : Shell) (h0 : st0.history = []) :
    ((mainLoop os fuel lines st0).history = [] ∨
      '|' ∈ (mainLoop os fuel lines st0).history ∨
      '<' ∈ (mainLoop os fuel lines st0).history ∨
      '>' ∈ (mainLoop os fuel lines st0).history ∨
      (runs DELIMITER (mainLoop os fuel lines st0).history).head? ≠ some ['!', '!']) ∧
    takesReplay (mainLoop os fuel lines st0).history = false ∧
    (∀ line, execCmd os 2 (mainLoop os fuel lines st0) (Buf.array line) ≠ Result.outOfFuel) ∧
    (∀ line, takesReplay line = true → (mainLoop os fuel lines st0).history ≠ [] →
      execCmd os 1 (mainLoop os fuel lines st0) (Buf.array line) = Result.outOfFuel ∧
      execCmd os 1 (mainLoop os fuel lines st0)
          (Buf.array (mainLoop os fuel lines st0).history)
        ≠ Result.outOfFuel) ∧
    (∀ k, mainLoop os (k + 2) lines st0 = mainLoop os 2 lines st0) := by
  have hst0 : takesReplay st0.history = false := by rw [h0]; decide
  have hinv : takesReplay (mainLoop os fuel lines st0).history = false :=
    mainLoop_history os fuel lines st0 hst0
  refine ⟨?_, hinv, ?_, ?_, ?_⟩
  · exact Or.inr ((takesReplay_false_iff _).mp hinv)
  · intro line
    exact (execCmd_depth_two os 0 _ line hinv).2
  · intro line ht hh
    have hlen : ¬ (mainLoop os fuel lines st0).history.length = 0 :=
      fun e => hh (List.length_eq_zero.mp e)
    refine ⟨?_, (execCmd_no_replay os 0 _ _ hinv).2⟩
    rw [execCmd_takesReplay os 0 _ line ht, if_neg hlen]
    rfl
  · intro k
    exact mainLoop_depth_two os k lines st0 hst0

/-- C10, witness: after the lines "ls\n" and "!!\n" the stored line is "ls\n";
the line "!!\n" then needs one nested call and the stored line none. -/
theorem replay_depth_at_most_one_witness :
    initial.history = [] ∧
    (mainLoop osAllOk 2 [['l', 's', '\n'], ['!', '!', '\n']] initial).history ≠ [] ∧
    execCmd osAllOk 1 (mainLoop osAllOk 2 [['l', 's', '\n'], ['!', '!', '\n']] initial)
        (Buf.array ['!', '!', '\n']) = Result.outOfFuel ∧
    execCmd osAllOk 1 (mainLoop osAllOk 2 [['l', 's', '\n'], ['!', '!', '\n']] initial)
        (Buf.array (mainLoop osAllOk 2 [['l', 's', '\n'], ['!', '!', '\n']] initial).history)
      ≠ Result.outOfFuel :=
  ⟨rfl, by decide,
    (replay_depth_at_most_one osAllOk 2 [['l', 's', '\n'], ['!', '!', '\n']] initial rfl).2.2.2.1
      ['!', '!', '\n'] (by decide) (by decide)⟩

end SimpleShell
